import Mathlib

/-!
Verification of the JSON tree model and traversal engine of the
`fromj.json` visual explorer.

The embedding follows the two source files:
* `src/web/src/app/page.tsx` — the `buildStats` fold producing `JsonStats`
  and the `parseAndLoad` state update;
* `src/web/src/components/json-tree.tsx` — the `JsonValue` type and the
  recursive `JsonNode`/`JsonTree` rendering, modelled here as the
  construction of an explicit tree of nodes with the metadata the
  components compute (name, depth, `open = depth < 2`, `isLast`).

JSON numbers are IEEE-754 doubles in the source; every finite double is a
rational, and none of the verified code ever inspects a number's value, so
the model carries numbers as `Rat`.  The counters of `JsonStats` are
small integers incremented by one, exact in a double, so they are
modelled as `Nat`.
-/

/-- The decoded JSON value type, from `json-tree.tsx`:
`string | number | boolean | null | JsonValue[] | { [key: string]: JsonValue }`.
Objects are ordered key/value sequences (JS objects preserve key-insertion
order, which is the order `Object.entries`/`Object.values` report). -/
inductive JsonValue where
  | str (s : String)
  | num (q : Rat)
  | bool (b : Bool)
  | null
  | arr (items : List JsonValue)
  | obj (fields : List (String × JsonValue))
deriving Repr

/-- The `JsonStats` record of `page.tsx`. -/
structure JsonStats where
  nodeCount : Nat
  objectCount : Nat
  arrayCount : Nat
  primitiveCount : Nat
  maxDepth : Nat
deriving Repr, DecidableEq

/-- One step of the `reduce` in `buildStats`: combine the accumulator with
the stats of one child. -/
def statsStep (acc stats : JsonStats) : JsonStats :=
  { nodeCount := acc.nodeCount + stats.nodeCount
    objectCount := acc.objectCount + stats.objectCount
    arrayCount := acc.arrayCount + stats.arrayCount
    primitiveCount := acc.primitiveCount + stats.primitiveCount
    maxDepth := max acc.maxDepth stats.maxDepth }

mutual
/-- `buildStats` from `page.tsx`: `null` and the non-container fallthrough
give one primitive node at the current depth; arrays and objects `reduce`
over their children at `depth + 1`, starting from the accumulator that
counts the container itself.  `Object.values` reports values in key order,
which the field-list order models. -/
def buildStats (value : JsonValue) (depth : Nat) : JsonStats :=
  match value with
  | .null => ⟨1, 0, 0, 1, depth⟩
  | .arr items => buildStatsList items depth ⟨1, 0, 1, 0, depth⟩
  | .obj fields => buildStatsFields fields depth ⟨1, 1, 0, 0, depth⟩
  | .str _ => ⟨1, 0, 0, 1, depth⟩
  | .num _ => ⟨1, 0, 0, 1, depth⟩
  | .bool _ => ⟨1, 0, 0, 1, depth⟩

/-- The array `reduce` of `buildStats`, unrolled as a left fold. -/
def buildStatsList (items : List JsonValue) (depth : Nat) (acc : JsonStats) : JsonStats :=
  match items with
  | [] => acc
  | entry :: rest => buildStatsList rest depth (statsStep acc (buildStats entry (depth + 1)))

/-- The `Object.values(...).reduce` of `buildStats`, unrolled as a left fold. -/
def buildStatsFields (fields : List (String × JsonValue)) (depth : Nat) (acc : JsonStats) :
    JsonStats :=
  match fields with
  | [] => acc
  | (_, entry) :: rest =>
      buildStatsFields rest depth (statsStep acc (buildStats entry (depth + 1)))
end

/-- The value `{"a":[1,2,{"b":3}]}` of the spec's worked example. -/
def exampleValue : JsonValue :=
  .obj [("a", .arr [.num 1, .num 2, .obj [("b", .num 3)]])]


/-! ## The rendered tree

`JsonNode` in `json-tree.tsx` recursively renders a value.  The tree of
rendered nodes, together with the metadata each `JsonNode` call receives or
computes — `name`, `depth`, `isLast`, and for containers the
`open={depth < 2}` attribute — is modelled as an explicit `TreeNode` tree.
Primitives render no children (and no `open` flag); containers render
their children via `Object.entries` (key order) or index order. -/

inductive TreeNode where
  | primitive (name : Option String) (value : JsonValue) (depth : Nat) (isLast : Bool)
  | arrayNode (name : Option String) (depth : Nat) (defaultOpen : Bool) (isLast : Bool)
      (children : List TreeNode)
  | objectNode (name : Option String) (depth : Nat) (defaultOpen : Bool) (isLast : Bool)
      (children : List TreeNode)
deriving Repr

def TreeNode.nodeName : TreeNode → Option String
  | .primitive n _ _ _ => n
  | .arrayNode n _ _ _ _ => n
  | .objectNode n _ _ _ _ => n

def TreeNode.nodeDepth : TreeNode → Nat
  | .primitive _ _ d _ => d
  | .arrayNode _ d _ _ _ => d
  | .objectNode _ d _ _ _ => d

def TreeNode.nodeIsLast : TreeNode → Bool
  | .primitive _ _ _ l => l
  | .arrayNode _ _ _ l _ => l
  | .objectNode _ _ _ l _ => l

def TreeNode.children : TreeNode → List TreeNode
  | .primitive _ _ _ _ => []
  | .arrayNode _ _ _ _ cs => cs
  | .objectNode _ _ _ _ cs => cs

/-- Whether the node is a container (`Object` or `Array`): exactly the
nodes `JsonNode` renders as a `details` element carrying an `open` flag. -/
def TreeNode.isContainer : TreeNode → Bool
  | .primitive _ _ _ _ => false
  | .arrayNode _ _ _ _ _ => true
  | .objectNode _ _ _ _ _ => true

/-- The `open` flag of a container node; `none` for primitives, which have
no expand/collapse state. -/
def TreeNode.defaultOpenOf : TreeNode → Option Bool
  | .primitive _ _ _ _ => none
  | .arrayNode _ _ o _ _ => some o
  | .objectNode _ _ o _ _ => some o

mutual
/-- `JsonNode` from `json-tree.tsx`: objects and arrays become container
nodes with `open = depth < 2` and children at `depth + 1`, object children
labelled with their key in `Object.entries` order, array children labelled
`"[i]"` in index order, `isLast = (index === length - 1)` for each child;
everything else falls through to a primitive node. -/
def buildNode (name : Option String) (value : JsonValue) (depth : Nat) (isLast : Bool) :
    TreeNode :=
  match value with
  | .obj fields =>
      .objectNode name depth (decide (depth < 2)) isLast (buildObjChildren fields (depth + 1))
  | .arr items =>
      .arrayNode name depth (decide (depth < 2)) isLast (buildArrChildren items (depth + 1) 0)
  | v => .primitive name v depth isLast

/-- The `entries.map` of the object branch of `JsonNode`: child `isLast`
is true exactly for the final entry. -/
def buildObjChildren (fields : List (String × JsonValue)) (depth : Nat) : List TreeNode :=
  match fields with
  | [] => []
  | (key, childValue) :: rest =>
      buildNode (some key) childValue depth rest.isEmpty :: buildObjChildren rest depth

/-- The `value.map` of the array branch of `JsonNode`: child `index` names
each child `"[index]"`, and `isLast` is true exactly for the final item. -/
def buildArrChildren (items : List JsonValue) (depth : Nat) (index : Nat) : List TreeNode :=
  match items with
  | [] => []
  | childValue :: rest =>
      buildNode (some ("[" ++ toString index ++ "]")) childValue depth rest.isEmpty ::
        buildArrChildren rest depth (index + 1)
end

/-- `JsonTree` from `json-tree.tsx`: renders the root via
`JsonNode name={rootLabel} value={value} depth={0} isLast`. -/
def buildTree (value : JsonValue) (rootLabel : String) : TreeNode :=
  buildNode (some rootLabel) value 0 true

mutual
/-- A node together with all of its descendants, in render order. -/
def allNodes (t : TreeNode) : List TreeNode :=
  match t with
  | .primitive n v d l => [.primitive n v d l]
  | .arrayNode n d o l cs => .arrayNode n d o l cs :: allNodesList cs
  | .objectNode n d o l cs => .objectNode n d o l cs :: allNodesList cs

def allNodesList (ts : List TreeNode) : List TreeNode :=
  match ts with
  | [] => []
  | t :: rest => allNodes t ++ allNodesList rest
end

/-! ## Spec-side observations on the tree -/

mutual
/-- The JSON value a tree renders, reconstructed from its nodes: used to
state that the built tree mirrors the input value's shape exactly. -/
def treeValue : TreeNode → JsonValue
  | .primitive _ v _ _ => v
  | .arrayNode _ _ _ _ cs => .arr (treeValueList cs)
  | .objectNode _ _ _ _ cs => .obj (treeValueFields cs)

def treeValueList : List TreeNode → List JsonValue
  | [] => []
  | t :: ts => treeValue t :: treeValueList ts

def treeValueFields : List TreeNode → List (String × JsonValue)
  | [] => []
  | t :: ts => ((TreeNode.nodeName t).getD "", treeValue t) :: treeValueFields ts
end

mutual
/-- The depth of every node of a value rooted at `depth`: the root's depth
followed by the depths of all descendants, each descent adding one. -/
def nodeDepths : JsonValue → Nat → List Nat
  | .arr items, depth => depth :: nodeDepthsList items (depth + 1)
  | .obj fields, depth => depth :: nodeDepthsFields fields (depth + 1)
  | _, depth => [depth]

def nodeDepthsList : List JsonValue → Nat → List Nat
  | [], _ => []
  | entry :: rest, depth => nodeDepths entry depth ++ nodeDepthsList rest depth

def nodeDepthsFields : List (String × JsonValue) → Nat → List Nat
  | [], _ => []
  | (_, entry) :: rest, depth => nodeDepths entry depth ++ nodeDepthsFields rest depth
end

/-- The expected labels of `n` array children starting at index `i`:
`"[i]", "[i+1]", …`. -/
def arrLabels : Nat → Nat → List (Option String)
  | 0, _ => []
  | n + 1, i => some ("[" ++ toString i ++ "]") :: arrLabels n (i + 1)

/-- Checks one sibling list: each node's `isLast` flag is true exactly for
the final entry. -/
def lastFlags : List TreeNode → Bool
  | [] => true
  | t :: ts => (TreeNode.nodeIsLast t == ts.isEmpty) && lastFlags ts

/-- The per-record counting invariant: total nodes split into the three
kinds. -/
def statsBalanced (s : JsonStats) : Prop :=
  s.nodeCount = s.objectCount + s.arrayCount + s.primitiveCount

/-- Whether a value is one of the four primitive kinds
(`null`, boolean, number, string). -/
def isPrimitiveValue : JsonValue → Bool
  | .null => true
  | .bool _ => true
  | .num _ => true
  | .str _ => true
  | .arr _ => false
  | .obj _ => false

/-! ## The page state on decode failure

`Home` in `page.tsx` keeps the decoded value, the active label, the error
message, the editor text and the update timestamp in React state, and the
rendered tree and `JsonStats` are pure derivations of `data`
(`useMemo(() => buildStats(data), [data])` and
`<JsonTree value={data} … />`).  `JSON.parse` is the external decoder,
modelled as a function into `Except`; `new Date()` is modelled by the
`now` argument. -/

structure ExplorerState where
  jsonText : String
  data : JsonValue
  activeLabel : String
  error : Option String
  updatedAt : Nat

/-- `parseAndLoad` from `page.tsx`: on decode success it stores the parsed
value, the new label, clears the error and refreshes the timestamp; when
the decoder throws it only records the error message and touches nothing
else. -/
def parseAndLoad (decode : String → Except String JsonValue) (now : Nat)
    (st : ExplorerState) (text label : String) : ExplorerState :=
  match decode text with
  | .ok parsed =>
      { st with data := parsed, activeLabel := label, error := none, updatedAt := now }
  | .error msg => { st with error := some ("Unable to parse JSON: " ++ msg) }

/-! ## Projections of `buildNode` -/

theorem buildNode_nodeName (n : Option String) (v : JsonValue) (d : Nat) (l : Bool) :
    (buildNode n v d l).nodeName = n := by
  cases v <;> simp [buildNode, TreeNode.nodeName]

theorem buildNode_nodeDepth (n : Option String) (v : JsonValue) (d : Nat) (l : Bool) :
    (buildNode n v d l).nodeDepth = d := by
  cases v <;> simp [buildNode, TreeNode.nodeDepth]

theorem buildNode_nodeIsLast (n : Option String) (v : JsonValue) (d : Nat) (l : Bool) :
    (buildNode n v d l).nodeIsLast = l := by
  cases v <;> simp [buildNode, TreeNode.nodeIsLast]

theorem buildObjChildren_length (fields : List (String × JsonValue)) (d : Nat) :
    (buildObjChildren fields d).length = fields.length := by
  induction fields generalizing d with
  | nil => simp [buildObjChildren]
  | cons f rest ih => cases f; simp [buildObjChildren, ih]

theorem buildArrChildren_length (items : List JsonValue) (d i : Nat) :
    (buildArrChildren items d i).length = items.length := by
  induction items generalizing i with
  | nil => simp [buildArrChildren]
  | cons x rest ih => simp [buildArrChildren, ih]

mutual
/-- The built tree renders back to exactly the input value: no node is
reordered or dropped, and object children carry their keys. -/
theorem treeValue_buildNode (n : Option String) (v : JsonValue) (d : Nat) (l : Bool) :
    treeValue (buildNode n v d l) = v := by
  match v with
  | .obj fields =>
      simp only [buildNode, treeValue]
      exact congrArg JsonValue.obj (treeValueFields_buildObjChildren fields (d + 1))
  | .arr items =>
      simp only [buildNode, treeValue]
      exact congrArg JsonValue.arr (treeValueList_buildArrChildren items (d + 1) 0)
  | .null => simp [buildNode, treeValue]
  | .str s => simp [buildNode, treeValue]
  | .num q => simp [buildNode, treeValue]
  | .bool b => simp [buildNode, treeValue]

theorem treeValueFields_buildObjChildren (fields : List (String × JsonValue)) (d : Nat) :
    treeValueFields (buildObjChildren fields d) = fields := by
  match fields with
  | [] => simp [buildObjChildren, treeValueFields]
  | (k, v) :: rest =>
      simp only [buildObjChildren, treeValueFields]
      refine congrArg₂ List.cons ?_ (treeValueFields_buildObjChildren rest d)
      rw [buildNode_nodeName, treeValue_buildNode]
      simp

theorem treeValueList_buildArrChildren (items : List JsonValue) (d i : Nat) :
    treeValueList (buildArrChildren items d i) = items := by
  match items with
  | [] => simp [buildArrChildren, treeValueList]
  | x :: rest =>
      simp only [buildArrChildren, treeValueList]
      exact congrArg₂ List.cons (treeValue_buildNode _ x d _)
        (treeValueList_buildArrChildren rest d (i + 1))
end

mutual
/-- Every node of the built tree is itself the result of a `buildNode`
call: the recursion of `JsonNode` renders children with `JsonNode`. -/
theorem mem_allNodes_buildNode (n : Option String) (v : JsonValue) (d : Nat) (l : Bool) :
    ∀ s ∈ allNodes (buildNode n v d l),
      ∃ n' v' d' l', s = buildNode n' v' d' l' := by
  match v with
  | .obj fields =>
      intro s hs
      simp only [buildNode, allNodes, List.mem_cons] at hs
      rcases hs with h | h
      · exact ⟨n, .obj fields, d, l, by simp [h, buildNode]⟩
      · exact mem_allNodesList_buildObjChildren fields (d + 1) s h
  | .arr items =>
      intro s hs
      simp only [buildNode, allNodes, List.mem_cons] at hs
      rcases hs with h | h
      · exact ⟨n, .arr items, d, l, by simp [h, buildNode]⟩
      · exact mem_allNodesList_buildArrChildren items (d + 1) 0 s h
  | .null =>
      intro s hs
      simp only [buildNode, allNodes, List.mem_singleton] at hs
      exact ⟨n, .null, d, l, by simp [hs, buildNode]⟩
  | .str q =>
      intro s hs
      simp only [buildNode, allNodes, List.mem_singleton] at hs
      exact ⟨n, .str q, d, l, by simp [hs, buildNode]⟩
  | .num q =>
      intro s hs
      simp only [buildNode, allNodes, List.mem_singleton] at hs
      exact ⟨n, .num q, d, l, by simp [hs, buildNode]⟩
  | .bool b =>
      intro s hs
      simp only [buildNode, allNodes, List.mem_singleton] at hs
      exact ⟨n, .bool b, d, l, by simp [hs, buildNode]⟩

theorem mem_allNodesList_buildObjChildren (fields : List (String × JsonValue)) (d : Nat) :
    ∀ s ∈ allNodesList (buildObjChildren fields d),
      ∃ n' v' d' l', s = buildNode n' v' d' l' := by
  match fields with
  | [] => intro s hs; simp [buildObjChildren, allNodesList] at hs
  | (k, v) :: rest =>
      intro s hs
      simp only [buildObjChildren, allNodesList, List.mem_append] at hs
      rcases hs with h | h
      · exact mem_allNodes_buildNode (some k) v d rest.isEmpty s h
      · exact mem_allNodesList_buildObjChildren rest d s h

theorem mem_allNodesList_buildArrChildren (items : List JsonValue) (d i : Nat) :
    ∀ s ∈ allNodesList (buildArrChildren items d i),
      ∃ n' v' d' l', s = buildNode n' v' d' l' := by
  match items with
  | [] => intro s hs; simp [buildArrChildren, allNodesList] at hs
  | x :: rest =>
      intro s hs
      simp only [buildArrChildren, allNodesList, List.mem_append] at hs
      rcases hs with h | h
      · exact mem_allNodes_buildNode _ x d rest.isEmpty s h
      · exact mem_allNodesList_buildArrChildren rest d (i + 1) s h
end

theorem buildObjChildren_names (fields : List (String × JsonValue)) (d : Nat) :
    (buildObjChildren fields d).map TreeNode.nodeName = fields.map (fun f => some f.1) := by
  induction fields generalizing d with
  | nil => simp [buildObjChildren]
  | cons f rest ih =>
      cases f
      simp [buildObjChildren, buildNode_nodeName, ih]

theorem buildArrChildren_names (items : List JsonValue) (d i : Nat) :
    (buildArrChildren items d i).map TreeNode.nodeName = arrLabels items.length i := by
  induction items generalizing i with
  | nil => simp [buildArrChildren, arrLabels]
  | cons x rest ih =>
      simp [buildArrChildren, arrLabels, buildNode_nodeName, ih]

theorem buildObjChildren_depths (fields : List (String × JsonValue)) (d : Nat) :
    ∀ c ∈ buildObjChildren fields d, c.nodeDepth = d := by
  induction fields generalizing d with
  | nil => simp [buildObjChildren]
  | cons f rest ih =>
      cases f
      intro c hc
      rcases List.mem_cons.mp hc with h | h
      · rw [h, buildNode_nodeDepth]
      · exact ih d c h

theorem buildArrChildren_depths (items : List JsonValue) (d i : Nat) :
    ∀ c ∈ buildArrChildren items d i, c.nodeDepth = d := by
  induction items generalizing i with
  | nil => simp [buildArrChildren]
  | cons x rest ih =>
      intro c hc
      rcases List.mem_cons.mp hc with h | h
      · rw [h, buildNode_nodeDepth]
      · exact ih (i + 1) c h

theorem buildObjChildren_isEmpty (fields : List (String × JsonValue)) (d : Nat) :
    (buildObjChildren fields d).isEmpty = fields.isEmpty := by
  cases fields with
  | nil => rfl
  | cons f rest => cases f; simp [buildObjChildren]

theorem buildArrChildren_isEmpty (items : List JsonValue) (d i : Nat) :
    (buildArrChildren items d i).isEmpty = items.isEmpty := by
  cases items with
  | nil => rfl
  | cons x rest => simp [buildArrChildren]

theorem lastFlags_buildObjChildren (fields : List (String × JsonValue)) (d : Nat) :
    lastFlags (buildObjChildren fields d) = true := by
  induction fields generalizing d with
  | nil => simp [buildObjChildren, lastFlags]
  | cons f rest ih =>
      cases f
      simp [buildObjChildren, lastFlags, buildNode_nodeIsLast, buildObjChildren_isEmpty, ih]

theorem lastFlags_buildArrChildren (items : List JsonValue) (d i : Nat) :
    lastFlags (buildArrChildren items d i) = true := by
  induction items generalizing i with
  | nil => simp [buildArrChildren, lastFlags]
  | cons x rest ih =>
      simp [buildArrChildren, lastFlags, buildNode_nodeIsLast, buildArrChildren_isEmpty, ih]

/-! ## The counting invariant of `buildStats` -/

theorem statsStep_balanced {a b : JsonStats} (ha : statsBalanced a) (hb : statsBalanced b) :
    statsBalanced (statsStep a b) := by
  simp only [statsBalanced, statsStep] at *
  omega

mutual
theorem buildStats_balanced (v : JsonValue) (d : Nat) : statsBalanced (buildStats v d) := by
  match v with
  | .null => simp [buildStats, statsBalanced]
  | .str s => simp [buildStats, statsBalanced]
  | .num q => simp [buildStats, statsBalanced]
  | .bool b => simp [buildStats, statsBalanced]
  | .arr items =>
      exact buildStatsList_balanced items d ⟨1, 0, 1, 0, d⟩ (by simp [statsBalanced])
  | .obj fields =>
      exact buildStatsFields_balanced fields d ⟨1, 1, 0, 0, d⟩ (by simp [statsBalanced])

theorem buildStatsList_balanced (items : List JsonValue) (d : Nat) (acc : JsonStats)
    (hacc : statsBalanced acc) : statsBalanced (buildStatsList items d acc) := by
  match items with
  | [] => simpa [buildStatsList] using hacc
  | entry :: rest =>
      simp only [buildStatsList]
      exact buildStatsList_balanced rest d _
        (statsStep_balanced hacc (buildStats_balanced entry (d + 1)))

theorem buildStatsFields_balanced (fields : List (String × JsonValue)) (d : Nat)
    (acc : JsonStats) (hacc : statsBalanced acc) :
    statsBalanced (buildStatsFields fields d acc) := by
  match fields with
  | [] => simpa [buildStatsFields] using hacc
  | (k, entry) :: rest =>
      simp only [buildStatsFields]
      exact buildStatsFields_balanced rest d _
        (statsStep_balanced hacc (buildStats_balanced entry (d + 1)))
end

/-! ## `maxDepth` computes the greatest node depth -/

theorem foldlMax_eq (a : Nat) (l : List Nat) : l.foldl max a = max a (l.foldl max 0) := by
  induction l generalizing a with
  | nil => simp
  | cons x xs ih =>
      simp only [List.foldl_cons]
      rw [ih (max a x), ih (max 0 x)]
      omega

theorem foldlMax_mem (l : List Nat) (h : l ≠ []) : l.foldl max 0 ∈ l := by
  induction l with
  | nil => exact absurd rfl h
  | cons x xs ih =>
      simp only [List.foldl_cons, Nat.zero_max]
      rw [foldlMax_eq]
      cases xs with
      | nil => simp
      | cons y ys =>
          rcases max_choice x ((y :: ys).foldl max 0) with hm | hm
        <;> rw [hm]
          · exact List.mem_cons_self _ _
          · exact List.mem_cons_of_mem _ (ih (by simp))

theorem le_foldlMax (l : List Nat) (x : Nat) (hx : x ∈ l) : x ≤ l.foldl max 0 := by
  induction l with
  | nil => simp at hx
  | cons a as ih =>
      simp only [List.foldl_cons, Nat.zero_max]
      rw [foldlMax_eq]
      rcases List.mem_cons.mp hx with h | h
      · omega
      · have := ih h
        omega

theorem nodeDepths_ne_nil (v : JsonValue) (d : Nat) : nodeDepths v d ≠ [] := by
  cases v <;> simp [nodeDepths]

mutual
theorem buildStats_maxDepth_eq (v : JsonValue) (d : Nat) :
    (buildStats v d).maxDepth = (nodeDepths v d).foldl max 0 := by
  match v with
  | .null => simp [buildStats, nodeDepths]
  | .str s => simp [buildStats, nodeDepths]
  | .num q => simp [buildStats, nodeDepths]
  | .bool b => simp [buildStats, nodeDepths]
  | .arr items =>
      have h := buildStatsList_maxDepth_eq items d ⟨1, 0, 1, 0, d⟩
      simp only [buildStats, nodeDepths, List.foldl_cons, Nat.zero_max]
      rw [h]
  | .obj fields =>
      have h := buildStatsFields_maxDepth_eq fields d ⟨1, 1, 0, 0, d⟩
      simp only [buildStats, nodeDepths, List.foldl_cons, Nat.zero_max]
      rw [h]

theorem buildStatsList_maxDepth_eq (items : List JsonValue) (d : Nat) (acc : JsonStats) :
    (buildStatsList items d acc).maxDepth =
      (nodeDepthsList items (d + 1)).foldl max acc.maxDepth := by
  match items with
  | [] => simp [buildStatsList, nodeDepthsList]
  | entry :: rest =>
      have h := buildStatsList_maxDepth_eq rest d (statsStep acc (buildStats entry (d + 1)))
      have he := buildStats_maxDepth_eq entry (d + 1)
      simp only [buildStatsList, nodeDepthsList, List.foldl_append]
      rw [h, foldlMax_eq acc.maxDepth, ← he]
      rfl

theorem buildStatsFields_maxDepth_eq (fields : List (String × JsonValue)) (d : Nat)
    (acc : JsonStats) :
    (buildStatsFields fields d acc).maxDepth =
      (nodeDepthsFields fields (d + 1)).foldl max acc.maxDepth := by
  match fields with
  | [] => simp [buildStatsFields, nodeDepthsFields]
  | (k, entry) :: rest =>
      have h := buildStatsFields_maxDepth_eq rest d (statsStep acc (buildStats entry (d + 1)))
      have he := buildStats_maxDepth_eq entry (d + 1)
      simp only [buildStatsFields, nodeDepthsFields, List.foldl_append]
      rw [h, foldlMax_eq acc.maxDepth, ← he]
      rfl
end

/-! ## Both traversals are total and visit the same nodes -/

theorem allNodes_ne_nil (t : TreeNode) : allNodes t ≠ [] := by
  cases t <;> simp [allNodes]

mutual
theorem allNodes_length_buildNode (n : Option String) (v : JsonValue) (d : Nat) (l : Bool) :
    (allNodes (buildNode n v d l)).length = (buildStats v d).nodeCount := by
  match v with
  | .null => simp [buildNode, allNodes, buildStats]
  | .str s => simp [buildNode, allNodes, buildStats]
  | .num q => simp [buildNode, allNodes, buildStats]
  | .bool b => simp [buildNode, allNodes, buildStats]
  | .arr items =>
      have h : (buildStatsList items d ⟨1, 0, 1, 0, d⟩).nodeCount =
          1 + (allNodesList (buildArrChildren items (d + 1) 0)).length :=
        buildStatsList_nodeCount items d ⟨1, 0, 1, 0, d⟩ 0
      simp only [buildNode, allNodes, buildStats, List.length_cons]
      omega
  | .obj fields =>
      have h : (buildStatsFields fields d ⟨1, 1, 0, 0, d⟩).nodeCount =
          1 + (allNodesList (buildObjChildren fields (d + 1))).length :=
        buildStatsFields_nodeCount fields d ⟨1, 1, 0, 0, d⟩
      simp only [buildNode, allNodes, buildStats, List.length_cons]
      omega

theorem buildStatsList_nodeCount (items : List JsonValue) (d : Nat) (acc : JsonStats)
    (i : Nat) :
    (buildStatsList items d acc).nodeCount =
      acc.nodeCount + (allNodesList (buildArrChildren items (d + 1) i)).length := by
  match items with
  | [] => simp [buildStatsList, buildArrChildren, allNodesList]
  | x :: rest =>
      have h : (buildStatsList rest d (statsStep acc (buildStats x (d + 1)))).nodeCount =
          acc.nodeCount + (buildStats x (d + 1)).nodeCount +
            (allNodesList (buildArrChildren rest (d + 1) (i + 1))).length :=
        buildStatsList_nodeCount rest d (statsStep acc (buildStats x (d + 1))) (i + 1)
      have hx := allNodes_length_buildNode
        (some ("[" ++ toString i ++ "]")) x (d + 1) rest.isEmpty
      simp only [buildStatsList, buildArrChildren, allNodesList, List.length_append]
      omega

theorem buildStatsFields_nodeCount (fields : List (String × JsonValue)) (d : Nat)
    (acc : JsonStats) :
    (buildStatsFields fields d acc).nodeCount =
      acc.nodeCount + (allNodesList (buildObjChildren fields (d + 1))).length := by
  match fields with
  | [] => simp [buildStatsFields, buildObjChildren, allNodesList]
  | (k, v) :: rest =>
      have h : (buildStatsFields rest d (statsStep acc (buildStats v (d + 1)))).nodeCount =
          acc.nodeCount + (buildStats v (d + 1)).nodeCount +
            (allNodesList (buildObjChildren rest (d + 1))).length :=
        buildStatsFields_nodeCount rest d (statsStep acc (buildStats v (d + 1)))
      have hx := allNodes_length_buildNode (some k) v (d + 1) rest.isEmpty
      simp only [buildStatsFields, buildObjChildren, allNodesList, List.length_append]
      omega
end

theorem self_mem_allNodes (t : TreeNode) : t ∈ allNodes t := by
  cases t <;> simp [allNodes]

/-! ## The claims -/

/-- C1, as the spec's example states it, is false on the code: for
`{"a":[1,2,{"b":3}]}` the stats fold does not return `maxDepth = 2` —
the primitive `3` sits at depth 3 (root object 0, array 1, inner object 2,
its value 3). -/
theorem exampleValue_stats_maxDepth_ne_two :
    buildStats exampleValue 0 ≠ ⟨6, 2, 1, 3, 2⟩ := by decide

/-- C1 (amended): for `{"a":[1,2,{"b":3}]}` the stats computation at depth
0 returns nodeCount = 6, objectCount = 2, arrayCount = 1,
primitiveCount = 3 and maxDepth = 3. -/
theorem exampleValue_stats : buildStats exampleValue 0 = ⟨6, 2, 1, 3, 3⟩ := by decide

/-- C2: for every `JsonValue v`, the stats returned by `buildStats`
satisfy `nodeCount = objectCount + arrayCount + primitiveCount`. -/
theorem buildStats_node_count_split (v : JsonValue) :
    (buildStats v 0).nodeCount =
      (buildStats v 0).objectCount + (buildStats v 0).arrayCount +
        (buildStats v 0).primitiveCount :=
  buildStats_balanced v 0

/-- C3: with the root at depth 0, `maxDepth` is the greatest depth among
the root and all of its descendants — it is the depth of some node, and no
node is deeper. -/
theorem buildStats_maxDepth_greatest (v : JsonValue) :
    (buildStats v 0).maxDepth ∈ nodeDepths v 0 ∧
      ∀ x ∈ nodeDepths v 0, x ≤ (buildStats v 0).maxDepth := by
  constructor
  · rw [buildStats_maxDepth_eq]
    exact foldlMax_mem _ (nodeDepths_ne_nil v 0)
  · intro x hx
    rw [buildStats_maxDepth_eq]
    exact le_foldlMax _ x hx

theorem buildStats_maxDepth_greatest_witness :
    (buildStats exampleValue 0).maxDepth ∈ nodeDepths exampleValue 0 ∧
      0 ∈ nodeDepths exampleValue 0 ∧ 0 ≤ (buildStats exampleValue 0).maxDepth :=
  ⟨(buildStats_maxDepth_greatest exampleValue).1, by decide,
    (buildStats_maxDepth_greatest exampleValue).2 0 (by decide)⟩

/-- C4: an empty object gives one node counted as an object, an empty
array one node counted as an array, each with `maxDepth` its own depth 0. -/
theorem buildStats_empty_containers :
    buildStats (.obj []) 0 = ⟨1, 1, 0, 0, 0⟩ ∧
      buildStats (.arr []) 0 = ⟨1, 0, 1, 0, 0⟩ := by
  decide

/-- C5: a primitive root (null, boolean, number or string) yields exactly
one node and one primitive: `nodeCount = 1`, `primitiveCount = 1`,
`objectCount = 0`, `arrayCount = 0`, `maxDepth = 0`. -/
theorem buildStats_primitive_root (v : JsonValue) (h : isPrimitiveValue v = true) :
    buildStats v 0 = ⟨1, 0, 0, 1, 0⟩ := by
  cases v <;> simp_all [isPrimitiveValue, buildStats]

theorem buildStats_primitive_root_witness :
    isPrimitiveValue .null = true ∧ buildStats .null 0 = ⟨1, 0, 0, 1, 0⟩ :=
  ⟨by decide, buildStats_primitive_root .null (by decide)⟩

/-- C6: for every node of the built tree that carries an `open` flag (the
containers), the flag is true iff the node's depth is strictly less
than 2; a container at depth exactly 2 starts collapsed. -/
theorem defaultOpen_iff_depth_lt_two (v : JsonValue) (rootLabel : String) (t : TreeNode)
    (ht : t ∈ allNodes (buildTree v rootLabel)) (b : Bool)
    (hb : t.defaultOpenOf = some b) : b = true ↔ t.nodeDepth < 2 := by
  obtain ⟨n', v', d', l', rfl⟩ := mem_allNodes_buildNode (some rootLabel) v 0 true t ht
  cases v' <;>
    simp_all [buildNode, TreeNode.defaultOpenOf, TreeNode.nodeDepth]
  all_goals simp [← hb]

theorem defaultOpen_iff_depth_lt_two_witness :
    buildTree (.arr []) "r" ∈ allNodes (buildTree (.arr []) "r") ∧
      (buildTree (.arr []) "r").defaultOpenOf = some true ∧
      (true = true ↔ (buildTree (.arr []) "r").nodeDepth < 2) :=
  ⟨self_mem_allNodes _, rfl,
    defaultOpen_iff_depth_lt_two (.arr []) "r" _ (self_mem_allNodes _) true rfl⟩

/-- C7: the built tree mirrors the value exactly: it reconstructs to the
input value (object children keyed, in key order; array children in index
order; nothing reordered or dropped), the root's depth is 0, every child
is one level deeper than its parent, and the children of an array node are
labelled `"[i]"` by index. -/
theorem tree_mirrors_value (v : JsonValue) (rootLabel : String) :
    treeValue (buildTree v rootLabel) = v ∧
    (buildTree v rootLabel).nodeDepth = 0 ∧
    ∀ t ∈ allNodes (buildTree v rootLabel),
      (∀ c ∈ t.children, c.nodeDepth = t.nodeDepth + 1) ∧
      (∀ fields, treeValue t = .obj fields →
        t.children.map TreeNode.nodeName = fields.map (fun f => some f.1)) ∧
      (∀ items, treeValue t = .arr items →
        t.children.map TreeNode.nodeName = arrLabels items.length 0) := by
  refine ⟨treeValue_buildNode _ v 0 true, buildNode_nodeDepth _ v 0 true, ?_⟩
  intro t ht
  obtain ⟨n', v', d', l', rfl⟩ := mem_allNodes_buildNode (some rootLabel) v 0 true t ht
  have hval := treeValue_buildNode n' v' d' l'
  cases v' with
  | obj fields0 =>
      refine ⟨?_, ?_, ?_⟩
      · intro c hc
        rw [buildNode_nodeDepth]
        simp only [buildNode, TreeNode.children] at hc
        exact buildObjChildren_depths fields0 (d' + 1) c hc
      · intro fields hf
        rw [hval] at hf
        cases hf
        simp [buildNode, TreeNode.children, buildObjChildren_names]
      · intro items hf
        rw [hval] at hf
        exact absurd hf (by simp)
  | arr items0 =>
      refine ⟨?_, ?_, ?_⟩
      · intro c hc
        rw [buildNode_nodeDepth]
        simp only [buildNode, TreeNode.children] at hc
        exact buildArrChildren_depths items0 (d' + 1) 0 c hc
      · intro fields hf
        rw [hval] at hf
        exact absurd hf (by simp)
      · intro items hf
        rw [hval] at hf
        cases hf
        simp [buildNode, TreeNode.children, buildArrChildren_names]
  | null =>
      refine ⟨?_, ?_, ?_⟩
      · intro c hc
        simp [buildNode, TreeNode.children] at hc
      · intro fields hf
        rw [hval] at hf
        exact absurd hf (by simp)
      · intro items hf
        rw [hval] at hf
        exact absurd hf (by simp)
  | str s =>
      refine ⟨?_, ?_, ?_⟩
      · intro c hc
        simp [buildNode, TreeNode.children] at hc
      · intro fields hf
        rw [hval] at hf
        exact absurd hf (by simp)
      · intro items hf
        rw [hval] at hf
        exact absurd hf (by simp)
  | num q =>
      refine ⟨?_, ?_, ?_⟩
      · intro c hc
        simp [buildNode, TreeNode.children] at hc
      · intro fields hf
        rw [hval] at hf
        exact absurd hf (by simp)
      · intro items hf
        rw [hval] at hf
        exact absurd hf (by simp)
  | bool b =>
      refine ⟨?_, ?_, ?_⟩
      · intro c hc
        simp [buildNode, TreeNode.children] at hc
      · intro fields hf
        rw [hval] at hf
        exact absurd hf (by simp)
      · intro items hf
        rw [hval] at hf
        exact absurd hf (by simp)

theorem tree_mirrors_value_witness :
    (buildTree (.arr [.null]) "r").children.map TreeNode.nodeName = arrLabels 1 0 := by
  have h :=
    ((tree_mirrors_value (.arr [.null]) "r").2.2 _ (self_mem_allNodes _)).2.2 [.null] rfl
  simpa using h

/-- C8: the root node is rendered with `isLast = true`, and in every
parent's ordered child list the `isLast` flag is true exactly for the
final entry. -/
theorem isLast_iff_final_sibling (v : JsonValue) (rootLabel : String) :
    (buildTree v rootLabel).nodeIsLast = true ∧
      ∀ t ∈ allNodes (buildTree v rootLabel), lastFlags t.children = true := by
  refine ⟨buildNode_nodeIsLast _ v 0 true, ?_⟩
  intro t ht
  obtain ⟨n', v', d', l', rfl⟩ := mem_allNodes_buildNode (some rootLabel) v 0 true t ht
  cases v' <;>
    simp [buildNode, TreeNode.children, lastFlags,
      lastFlags_buildObjChildren, lastFlags_buildArrChildren]

theorem isLast_iff_final_sibling_witness :
    (buildTree exampleValue "r").nodeIsLast = true ∧
      lastFlags (buildTree exampleValue "r").children = true :=
  ⟨(isLast_iff_final_sibling exampleValue "r").1,
    (isLast_iff_final_sibling exampleValue "r").2 _ (self_mem_allNodes _)⟩

/-- C9: when the decoder fails on the input text, `parseAndLoad` leaves
the loaded data — and therefore the stats and the tree derived from it —
exactly as it was. -/
theorem parseAndLoad_error_preserves_data
    (decode : String → Except String JsonValue) (now : Nat) (st : ExplorerState)
    (text label msg : String) (h : decode text = .error msg) :
    (parseAndLoad decode now st text label).data = st.data ∧
      buildStats (parseAndLoad decode now st text label).data 0 = buildStats st.data 0 ∧
      ∀ lbl, buildTree (parseAndLoad decode now st text label).data lbl =
        buildTree st.data lbl := by
  have hd : (parseAndLoad decode now st text label).data = st.data := by
    simp [parseAndLoad, h]
  exact ⟨hd, by rw [hd], fun lbl => by rw [hd]⟩

theorem parseAndLoad_error_preserves_data_witness :
    ((fun _ : String => (Except.error "bad" : Except String JsonValue)) "oops"
        = Except.error "bad") ∧
      (parseAndLoad (fun _ => Except.error "bad") 1
          ⟨"", JsonValue.null, "", none, 0⟩ "oops" "label").data = JsonValue.null :=
  ⟨rfl, (parseAndLoad_error_preserves_data (fun _ => Except.error "bad") 1
      ⟨"", JsonValue.null, "", none, 0⟩ "oops" "label" "bad" rfl).1⟩

/-- C10: both traversals are total — `buildStats` and the tree
construction are total functions, defined for every value however deep or
wide — and consistent: the tree has exactly `nodeCount` nodes, at least
one. -/
theorem traversal_total (v : JsonValue) (depth : Nat) (label : Option String) (l : Bool) :
    (allNodes (buildNode label v depth l)).length = (buildStats v depth).nodeCount ∧
      1 ≤ (buildStats v depth).nodeCount := by
  have h := allNodes_length_buildNode label v depth l
  refine ⟨h, ?_⟩
  rw [← h]
  exact List.length_pos.mpr (allNodes_ne_nil (buildNode label v depth l))
